import Mathlib

/-!
# Verification of the gollmscribe core against its specification

Shallow embedding of the pure parts of the gollmscribe repository:

* `pkg/audio/chunker.go` — the chunk-boundary planner `CalculateChunks`;
* `pkg/watcher/tracker.go` — the in-memory per-path lock table;
* `pkg/watcher/history.go` — the persistent processed/failed history;
* `pkg/transcriber/merger.go` — the overlap-aware chunk merger;
* the timestamp-adjustment step of `TranscriberImpl.transcribeChunk`.

Go `time.Duration` values are `int64` nanosecond counts.  Where overflow can
change control flow — the chunk planner's generation loop — int64 addition
and subtraction are modelled exactly, as `wrap64` of the unbounded result on
representatives in `[-2^63, 2^63)`.  Elsewhere (timestamps carried through
the tracker, the history records and the merger) the values are modelled as
`Int`: those claims' operations are single additions and comparisons with no
control-flow or termination dependence on wrap-around.  Go maps are modelled
as association lists whose lookup semantics mirror the map; fallible or
non-terminating code is modelled with `Option` (fuel) or an explicit outcome
type.
-/

namespace Gollmscribe

/-! ## ChunkPlanner: `ChunkerImpl.CalculateChunks` (pkg/audio/chunker.go) -/

/-- `audio.ChunkInfo` as produced by `CalculateChunks`: the planner fills
`Index`, `Start`, `End` and `Duration` (the file-path fields are set later by
`ChunkAudio` and play no role in the planning claims).  Go's `Index` is an
`int` that starts at `0` and is only ever incremented, so `Nat` is used. -/
structure ChunkInfo where
  Index : Nat
  Start : Int
  End : Int
  Duration : Int

/-- Go's `int64` arithmetic: reduce an unbounded result to its two's
complement representative in `[-2^63, 2^63)`. -/
def wrap64 (n : Int) : Int :=
  (n + 2 ^ 63) % 2 ^ 64 - 2 ^ 63

theorem wrap64_eq_self (n : Int) (h1 : -(2 ^ 63) ≤ n) (h2 : n < 2 ^ 63) :
    wrap64 n = n := by
  rw [wrap64]
  omega

/-- The step-size computation of `CalculateChunks` (chunker.go lines 124-129):
`chunkDuration - overlapDuration` (an int64 subtraction, which wraps),
falling back to `chunkDuration / 2` (Go `/` on `int64` truncates toward
zero, i.e. `Int.tdiv`) when the difference is not positive. -/
def stepSize (chunkDuration overlapDuration : Int) : Int :=
  let s := wrap64 (chunkDuration - overlapDuration)
  if s ≤ 0 then chunkDuration.tdiv 2 else s

/-- The chunk-generation loop of `CalculateChunks` (chunker.go lines 131-152)
with explicit fuel: `none` means the fuel ran out while the Go loop would
still be running.  Each iteration with `start < duration` computes
`end := start + chunkDuration` and `start += stepSize` in int64 arithmetic
(which wraps at the `2^63` boundary), emits the chunk, and breaks once the
chunk's end reaches `duration`. -/
def calcLoop (fuel : Nat) (duration chunkDuration step start : Int) (index : Nat) :
    Option (List ChunkInfo) :=
  match fuel with
  | 0 => none
  | fuel + 1 =>
    if start < duration then
      let e0 := wrap64 (start + chunkDuration)
      let e := if e0 > duration then duration else e0
      let chunk : ChunkInfo := ⟨index, start, e, wrap64 (e - start)⟩
      if e ≥ duration then
        some [chunk]
      else
        (calcLoop fuel duration chunkDuration step (wrap64 (start + step)) (index + 1)).map
          (chunk :: ·)
    else
      some []

/-- `ChunkerImpl.CalculateChunks` (chunker.go lines 110-155).  A file no longer
than one chunk yields the single chunk `[0, duration)`; otherwise the
generation loop runs with the computed step size.  `fuel` bounds the number of
loop iterations the model is willing to execute. -/
def CalculateChunks (fuel : Nat) (duration chunkDuration overlapDuration : Int) :
    Option (List ChunkInfo) :=
  if duration ≤ chunkDuration then
    some [⟨0, 0, duration, duration⟩]
  else
    calcLoop fuel duration chunkDuration (stepSize chunkDuration overlapDuration) 0 0

/-- The Go `CalculateChunks` terminates on the given inputs: some finite fuel
is enough for the model to deliver the chunk list. -/
def TerminatesOn (duration chunkDuration overlapDuration : Int) : Prop :=
  ∃ fuel chunks, CalculateChunks fuel duration chunkDuration overlapDuration = some chunks

/-- The chunk the loop emits on its `j`-th iteration when started at
`start` with index `index`. -/
def plannedChunk (duration chunkDuration step start : Int) (index j : Nat) : ChunkInfo :=
  let st := start + (j : Int) * step
  ⟨index + j, st, min (st + chunkDuration) duration, min (st + chunkDuration) duration - st⟩

/-- An iteration whose (wrapped) chunk end already reaches `duration` emits
that chunk and breaks. -/
theorem calcLoop_succ_break (fuel : Nat) (duration chunkDuration step start : Int)
    (index : Nat) (hlt : start < duration)
    (hbreak : duration ≤ wrap64 (start + chunkDuration)) :
    calcLoop (fuel + 1) duration chunkDuration step start index =
      some [⟨index, start, duration, wrap64 (duration - start)⟩] := by
  rw [calcLoop]
  rcases lt_or_eq_of_le hbreak with h | h
  · simp [hlt, h, le_of_lt h]
  · simp [hlt, ← h]

/-- An iteration whose (wrapped) chunk end stays strictly below `duration`
emits the chunk and continues at the wrapped `start + step`. -/
theorem calcLoop_succ_cont (fuel : Nat) (duration chunkDuration step start : Int)
    (index : Nat) (hlt : start < duration)
    (hcont : wrap64 (start + chunkDuration) < duration) :
    calcLoop (fuel + 1) duration chunkDuration step start index =
      (calcLoop fuel duration chunkDuration step (wrap64 (start + step)) (index + 1)).map
        (⟨index, start, wrap64 (start + chunkDuration),
          wrap64 (wrap64 (start + chunkDuration) - start)⟩ :: ·) := by
  rw [calcLoop]
  have h1 : ¬ wrap64 (start + chunkDuration) > duration := by omega
  have h2 : ¬ wrap64 (start + chunkDuration) ≥ duration := by omega
  simp only [if_pos hlt, if_neg h1, if_neg h2]

/-- `calcLoop_succ_break` in the overflow-free regime: the wraps vanish. -/
theorem calcLoop_succ_break_nowrap (fuel : Nat) (duration chunkDuration step start : Int)
    (index : Nat) (h0 : 0 ≤ start) (hC : 0 < chunkDuration)
    (hbound : duration + chunkDuration < 2 ^ 63)
    (hlt : start < duration) (hbreak : duration ≤ start + chunkDuration) :
    calcLoop (fuel + 1) duration chunkDuration step start index =
      some [⟨index, start, duration, duration - start⟩] := by
  have hw : wrap64 (start + chunkDuration) = start + chunkDuration :=
    wrap64_eq_self _ (by omega) (by omega)
  rw [calcLoop_succ_break fuel duration chunkDuration step start index hlt
    (by rw [hw]; exact hbreak)]
  rw [wrap64_eq_self (duration - start) (by omega) (by omega)]

/-- `calcLoop_succ_cont` in the overflow-free regime: the wraps vanish. -/
theorem calcLoop_succ_cont_nowrap (fuel : Nat) (duration chunkDuration step start : Int)
    (index : Nat) (h0 : 0 ≤ start) (hstep : 0 < step) (hstepC : step ≤ chunkDuration)
    (hbound : duration + chunkDuration < 2 ^ 63)
    (hlt : start < duration) (hcont : start + chunkDuration < duration) :
    calcLoop (fuel + 1) duration chunkDuration step start index =
      (calcLoop fuel duration chunkDuration step (start + step) (index + 1)).map
        (⟨index, start, start + chunkDuration, chunkDuration⟩ :: ·) := by
  have hw1 : wrap64 (start + chunkDuration) = start + chunkDuration :=
    wrap64_eq_self _ (by omega) (by omega)
  have hw2 : wrap64 (start + step) = start + step :=
    wrap64_eq_self _ (by omega) (by omega)
  rw [calcLoop_succ_cont fuel duration chunkDuration step start index hlt
    (by rw [hw1]; exact hcont)]
  rw [hw1, hw2, show start + chunkDuration - start = chunkDuration from by omega,
    wrap64_eq_self chunkDuration (by omega) (by omega)]

/-- With a positive step, non-overflowing step arithmetic and enough fuel,
the generation loop finishes. -/
theorem calcLoop_isSome (duration chunkDuration step : Int) (hstep : 0 < step)
    (hbound : duration + step < 2 ^ 63) :
    ∀ (fuel : Nat) (start : Int) (index : Nat), 0 ≤ start →
      (duration - start).toNat < fuel →
      (calcLoop fuel duration chunkDuration step start index).isSome := by
  intro fuel
  induction fuel with
  | zero => intro start index h0 h; omega
  | succ fuel ih =>
    intro start index h0 h
    by_cases hlt : start < duration
    · rcases le_or_lt duration (wrap64 (start + chunkDuration)) with hbr | hco
      · rw [calcLoop_succ_break fuel duration chunkDuration step start index hlt hbr]
        rfl
      · rw [calcLoop_succ_cont fuel duration chunkDuration step start index hlt hco]
        rw [wrap64_eq_self (start + step) (by omega) (by omega)]
        have := ih (start + step) (index + 1) (by omega) (by omega)
        simpa using this
    · rw [calcLoop]; simp [hlt]

/-- With an effective step of zero and the loop actually entered, the loop
state never changes and no amount of fuel finishes it. -/
theorem calcLoop_step_zero_none (duration chunkDuration : Int)
    (hCD : chunkDuration < duration) (hD : 0 < duration)
    (hC1 : -(2 ^ 63) ≤ chunkDuration) (hC2 : chunkDuration < 2 ^ 63) :
    ∀ (fuel : Nat) (index : Nat), calcLoop fuel duration chunkDuration 0 0 index = none := by
  intro fuel
  induction fuel with
  | zero => intro index; rfl
  | succ fuel ih =>
    intro index
    have hw : wrap64 (0 + chunkDuration) = chunkDuration := by
      rw [zero_add]
      exact wrap64_eq_self _ hC1 hC2
    rw [calcLoop_succ_cont fuel duration chunkDuration 0 0 index hD
      (by rw [hw]; exact hCD)]
    rw [show wrap64 (0 + 0) = 0 from by decide, ih (index + 1)]
    rfl

/-- Full characterization of the generation loop in the overflow-free regime:
each emitted chunk is the `plannedChunk`, every emitted start stays below
`duration`, and the final chunk ends exactly at `duration`. -/
theorem calcLoop_spec (duration chunkDuration step : Int)
    (hstep : 0 < step) (hstepC : step ≤ chunkDuration)
    (hbound : duration + chunkDuration < 2 ^ 63) :
    ∀ (fuel : Nat) (start : Int) (index : Nat),
      0 ≤ start → start < duration → (duration - start).toNat < fuel →
      ∃ l, calcLoop fuel duration chunkDuration step start index = some l ∧
        l ≠ [] ∧
        (∀ j, (hj : j < l.length) →
          l.get ⟨j, hj⟩ = plannedChunk duration chunkDuration step start index j ∧
          start + (j : Int) * step < duration) ∧
        ∃ c, l.getLast? = some c ∧ c.End = duration := by
  intro fuel
  induction fuel with
  | zero => intro start index h0 hlt h; omega
  | succ fuel ih =>
    intro start index h0 hlt h
    rcases le_or_lt duration (start + chunkDuration) with hbr | hco
    · rw [calcLoop_succ_break_nowrap fuel duration chunkDuration step start index h0
        (by omega) hbound hlt hbr]
      refine ⟨_, rfl, by simp, ?_, ?_⟩
      · intro j hj
        simp only [List.length_singleton] at hj
        interval_cases j
        constructor
        · simp only [List.get]
          simp [plannedChunk]
          omega
        · simpa using hlt
      · exact ⟨_, rfl, rfl⟩
    · rw [calcLoop_succ_cont_nowrap fuel duration chunkDuration step start index h0
        hstep hstepC hbound hlt hco]
      obtain ⟨l, hl, hne, helem, c, hlast, hcEnd⟩ :=
        ih (start + step) (index + 1) (by omega) (by omega) (by omega)
      refine ⟨_, by rw [hl]; rfl, by simp, ?_, ?_⟩
      · intro j hj
        match j with
        | 0 =>
          refine ⟨?_, by simpa using hlt⟩
          simp only [List.get]
          simp [plannedChunk]
          omega
        | j + 1 =>
          simp only [List.length_cons] at hj
          obtain ⟨he, hst⟩ := helem j (by omega)
          refine ⟨?_, ?_⟩
          · show l.get ⟨j, by omega⟩ = _
            rw [he]
            simp only [plannedChunk, ChunkInfo.mk.injEq]
            push_cast
            refine ⟨by omega, by ring, by ring_nf, by ring_nf⟩
          · push_cast at hst ⊢
            nlinarith [hst]
      · refine ⟨c, ?_, hcEnd⟩
        rw [List.getLast?_cons, hlast]
        simp

/-- The plan the loop produces from `start = 0`: per-chunk formulas, no start
beyond `duration`, contiguity of consecutive chunks, final end `= duration`,
and coverage of every point of `[0, duration)`. -/
theorem calcLoop_plan (duration chunkDuration step : Int) (fuel : Nat)
    (hstep : 0 < step) (hstepC : step ≤ chunkDuration) (hD : 0 < duration)
    (hbound : duration + chunkDuration < 2 ^ 63)
    (hfuel : duration.toNat < fuel) :
    ∃ l, calcLoop fuel duration chunkDuration step 0 0 = some l ∧ l ≠ [] ∧
      (∀ j, (hj : j < l.length) →
        (l.get ⟨j, hj⟩).Index = j ∧
        (l.get ⟨j, hj⟩).Start = (j : Int) * step ∧
        (l.get ⟨j, hj⟩).End = min ((j : Int) * step + chunkDuration) duration ∧
        (j : Int) * step < duration) ∧
      (∀ j, (hj : j + 1 < l.length) →
        (l.get ⟨j + 1, hj⟩).Start ≤ (l.get ⟨j, by omega⟩).End) ∧
      (∃ c, l.getLast? = some c ∧ c.End = duration) ∧
      (∀ t : Int, 0 ≤ t → t < duration →
        ∃ j, ∃ hj : j < l.length, (l.get ⟨j, hj⟩).Start ≤ t ∧ t < (l.get ⟨j, hj⟩).End) := by
  obtain ⟨l, hl, hne, helem, c, hlast, hcEnd⟩ :=
    calcLoop_spec duration chunkDuration step hstep hstepC hbound fuel 0 0 (by omega) hD
      (by omega)
  have helem' : ∀ j, (hj : j < l.length) →
      (l.get ⟨j, hj⟩).Index = j ∧
      (l.get ⟨j, hj⟩).Start = (j : Int) * step ∧
      (l.get ⟨j, hj⟩).End = min ((j : Int) * step + chunkDuration) duration ∧
      (j : Int) * step < duration := by
    intro j hj
    obtain ⟨he, hst⟩ := helem j hj
    rw [he]
    simp only [plannedChunk]
    refine ⟨by omega, by ring, by ring_nf, by simpa using hst⟩
  have hlen : 0 < l.length := List.length_pos.mpr hne
  -- the last element is the chunk at position `l.length - 1`
  have hlastget : c = l.get ⟨l.length - 1, by omega⟩ := by
    rw [List.getLast?_eq_getElem?] at hlast
    rw [List.getElem?_eq_getElem (by omega)] at hlast
    simpa [List.get_eq_getElem] using hlast.symm
  have hlastEnd : min (((l.length - 1 : Nat) : Int) * step + chunkDuration) duration
      = duration := by
    obtain ⟨-, -, hE, -⟩ := helem' (l.length - 1) (by omega)
    rw [← hE, ← hlastget, hcEnd]
  have hDlast : duration ≤ ((l.length - 1 : Nat) : Int) * step + chunkDuration := by
    by_contra hcon
    push_neg at hcon
    rw [min_eq_left (le_of_lt hcon)] at hlastEnd
    omega
  refine ⟨l, hl, hne, helem', ?_, ⟨c, hlast, hcEnd⟩, ?_⟩
  · -- contiguity
    intro j hj
    obtain ⟨-, hS, -, hlt⟩ := helem' (j + 1) hj
    obtain ⟨-, -, hE, -⟩ := helem' j (by omega)
    rw [hS, hE]
    have h1 : ((j : Int) + 1) * step ≤ (j : Int) * step + chunkDuration := by nlinarith
    refine le_min (by push_cast; nlinarith) (by push_cast at hlt ⊢; omega)
  · -- coverage
    intro t ht0 htD
    have hstepne : step ≠ 0 := by omega
    have hmod : t % step = t - step * (t / step) := Int.emod_def t step
    have hmod0 : 0 ≤ t % step := Int.emod_nonneg t hstepne
    have hmodlt : t % step < step := Int.emod_lt_of_pos t hstep
    have hq0 : 0 ≤ t / step := Int.ediv_nonneg ht0 (by omega)
    have hqle : (t / step) * step ≤ t := by rw [mul_comm]; omega
    have hqlt : t < (t / step) * step + step := by rw [mul_comm] at hqle ⊢; omega
    by_cases hcase : (t / step).toNat < l.length
    · refine ⟨(t / step).toNat, hcase, ?_, ?_⟩
      · obtain ⟨-, hS, -, -⟩ := helem' (t / step).toNat hcase
        rw [hS, Int.toNat_of_nonneg hq0]
        exact hqle
      · obtain ⟨-, -, hE, -⟩ := helem' (t / step).toNat hcase
        rw [hE, Int.toNat_of_nonneg hq0]
        exact lt_min (by omega) htD
    · refine ⟨l.length - 1, by omega, ?_, ?_⟩
      · obtain ⟨-, hS, -, -⟩ := helem' (l.length - 1) (by omega)
        rw [hS]
        have h1 := Int.toNat_of_nonneg hq0
        have hle : ((l.length - 1 : Nat) : Int) ≤ t / step := by omega
        calc ((l.length - 1 : Nat) : Int) * step ≤ (t / step) * step :=
              mul_le_mul_of_nonneg_right hle (by omega)
          _ ≤ t := hqle
      · obtain ⟨-, -, hE, -⟩ := helem' (l.length - 1) (by omega)
        rw [hE, min_eq_right hDlast]
        exact htD

/-- At `D = 2^63 - 1`, `C = 2^62` and step `2^62`, the loop's int64 `start`
cycles through `{0, 2^62, -2^63, -2^62}` — each below `D`, with each wrapped
chunk end also below `D` — so the loop never breaks and never exits. -/
theorem calcLoop_overflow_cycle_none :
    ∀ (fuel index : Nat) (start : Int),
      start = 0 ∨ start = 2 ^ 62 ∨ start = -(2 ^ 63) ∨ start = -(2 ^ 62) →
      calcLoop fuel (2 ^ 63 - 1) (2 ^ 62) (2 ^ 62) start index = none := by
  intro fuel
  induction fuel with
  | zero => intro index start h; rfl
  | succ fuel ih =>
    intro index start h
    rcases h with rfl | rfl | rfl | rfl
    · rw [calcLoop_succ_cont fuel _ _ _ _ index (by decide) (by decide),
        show wrap64 (0 + 2 ^ 62) = 2 ^ 62 from by decide,
        ih (index + 1) (2 ^ 62) (Or.inr (Or.inl rfl))]
      rfl
    · rw [calcLoop_succ_cont fuel _ _ _ _ index (by decide) (by decide),
        show wrap64 (2 ^ 62 + 2 ^ 62) = -(2 ^ 63) from by decide,
        ih (index + 1) (-(2 ^ 63)) (Or.inr (Or.inr (Or.inl rfl)))]
      rfl
    · rw [calcLoop_succ_cont fuel _ _ _ _ index (by decide) (by decide),
        show wrap64 (-(2 ^ 63) + 2 ^ 62) = -(2 ^ 62) from by decide,
        ih (index + 1) (-(2 ^ 62)) (Or.inr (Or.inr (Or.inr rfl)))]
      rfl
    · rw [calcLoop_succ_cont fuel _ _ _ _ index (by decide) (by decide),
        show wrap64 (-(2 ^ 62) + 2 ^ 62) = 0 from by decide,
        ih (index + 1) 0 (Or.inl rfl)]
      rfl

/-- C1 counterexample: `D = 2^63 - 1`, `C = 2^62`, `O = 0` satisfies
`0 ≤ O < C ≤ D` (all are representable int64 durations), yet the loop's
int64 `start` wraps and cycles forever, so `CalculateChunks` never produces
any chunk list — let alone a gapless one. -/
theorem calculateChunks_gapless_cover_cex :
    ((0 : Int) ≤ 0 ∧ (0 : Int) < 2 ^ 62 ∧ (2 ^ 62 : Int) ≤ 2 ^ 63 - 1) ∧
    ¬ TerminatesOn (2 ^ 63 - 1) (2 ^ 62) 0 := by
  refine ⟨by decide, ?_⟩
  rintro ⟨fuel, l, hl⟩
  rw [CalculateChunks, if_neg (by decide),
    show stepSize (2 ^ 62) 0 = 2 ^ 62 from by decide,
    calcLoop_overflow_cycle_none fuel 0 0 (Or.inl rfl)] at hl
  exact Option.noConfusion hl

/-- C1 (amended): for `0 ≤ O < C ≤ D` with additionally `D + C < 2^63` (so
the loop's int64 `start + C` and `start + step` never overflow), the plan
computed by `CalculateChunks D C O` covers `[0, D)` with no gaps — chunks are
generated at `start = 0, step, 2·step, …` spanning `[start, min (start+C) D)`,
indices are sequential from `0`, consecutive chunks are contiguous or
overlapping, and the last chunk's end is exactly `D`.  `D.toNat + 1` units of
fuel always suffice. -/
theorem calculateChunks_gapless_cover (D C O : Int)
    (hO : 0 ≤ O) (hOC : O < C) (hCD : C ≤ D) (hbound : D + C < 2 ^ 63) :
    ∃ l, CalculateChunks (D.toNat + 1) D C O = some l ∧ l ≠ [] ∧
      (∀ j, (hj : j < l.length) →
        (l.get ⟨j, hj⟩).Index = j ∧
        (l.get ⟨j, hj⟩).Start = (j : Int) * stepSize C O ∧
        (l.get ⟨j, hj⟩).End = min ((j : Int) * stepSize C O + C) D) ∧
      (∀ j, (hj : j + 1 < l.length) →
        (l.get ⟨j + 1, hj⟩).Start ≤ (l.get ⟨j, by omega⟩).End) ∧
      (∃ c, l.getLast? = some c ∧ c.End = D) ∧
      (∀ t : Int, 0 ≤ t → t < D →
        ∃ j, ∃ hj : j < l.length, (l.get ⟨j, hj⟩).Start ≤ t ∧ t < (l.get ⟨j, hj⟩).End) := by
  have hs : stepSize C O = C - O := by
    simp only [stepSize]
    rw [wrap64_eq_self (C - O) (by omega) (by omega), if_neg (by omega)]
  rcases le_or_lt D C with hDC | hCDlt
  · -- duration ≤ chunkDuration: single chunk, and here C = D
    have hCeq : C = D := le_antisymm hCD hDC
    rw [CalculateChunks, if_pos hDC]
    refine ⟨_, rfl, by simp, ?_, ?_, ⟨_, rfl, rfl⟩, ?_⟩
    · intro j hj
      simp only [List.length_singleton] at hj
      interval_cases j
      refine ⟨rfl, by simp, ?_⟩
      simp only [List.get]
      rw [hs]
      have : (0 : Int) * (C - O) + C = C := by ring
      rw [Int.natCast_zero, this, hCeq, min_self]
    · intro j hj
      simp only [List.length_singleton] at hj
      omega
    · intro t ht0 htD
      exact ⟨0, by simp, by simpa using ht0, by simpa using htD⟩
  · rw [CalculateChunks, if_neg (by omega)]
    obtain ⟨l, hl, hne, helem, hchain, hlast, hcover⟩ :=
      calcLoop_plan D C (stepSize C O) (D.toNat + 1) (by omega) (by omega) (by omega)
        (by omega) (by omega)
    exact ⟨l, hl, hne, fun j hj => ⟨(helem j hj).1, (helem j hj).2.1, (helem j hj).2.2.1⟩,
      hchain, hlast, hcover⟩

/-- Witness for the amended C1 at `D = 120`, `C = 30`, `O = 5`. -/
theorem calculateChunks_gapless_cover_witness :
    (0 : Int) ≤ 5 ∧ (5 : Int) < 30 ∧ (30 : Int) ≤ 120 ∧ (120 : Int) + 30 < 2 ^ 63 ∧
    (∃ l, CalculateChunks ((120 : Int).toNat + 1) 120 30 5 = some l ∧ l ≠ [] ∧
      (∀ j, (hj : j < l.length) →
        (l.get ⟨j, hj⟩).Index = j ∧
        (l.get ⟨j, hj⟩).Start = (j : Int) * stepSize 30 5 ∧
        (l.get ⟨j, hj⟩).End = min ((j : Int) * stepSize 30 5 + 30) 120) ∧
      (∀ j, (hj : j + 1 < l.length) →
        (l.get ⟨j + 1, hj⟩).Start ≤ (l.get ⟨j, by omega⟩).End) ∧
      (∃ c, l.getLast? = some c ∧ c.End = 120) ∧
      (∀ t : Int, 0 ≤ t → t < 120 →
        ∃ j, ∃ hj : j < l.length, (l.get ⟨j, hj⟩).Start ≤ t ∧ t < (l.get ⟨j, hj⟩).End)) :=
  ⟨by decide, by decide, by decide, by decide,
    calculateChunks_gapless_cover 120 30 5 (by decide) (by decide) (by decide) (by decide)⟩

/-- C7 counterexample: at `D = 2`, `C = 1`, `O = 1` we have `O ≥ C` and
`D > C`, but the fallback step is `C / 2 = 0` (integer division), the loop
state never advances, and no chunk list is ever produced — so there is no
gapless plan at all for these inputs. -/
theorem calculateChunks_fallback_cex : ¬ TerminatesOn 2 1 1 := by
  rintro ⟨fuel, l, hl⟩
  rw [CalculateChunks, if_neg (by omega)] at hl
  have hs : stepSize 1 1 = 0 := by decide
  rw [hs, calcLoop_step_zero_none 2 1 (by omega) (by omega) (by omega) (by omega)
    fuel 0] at hl
  exact Option.noConfusion hl

/-- C7 (amended): for `O ≥ C`, `D > C` and `C ≥ 2` (so that the fallback step
`C / 2` is positive), with int64-representable `O` and non-overflowing loop
arithmetic (`D + C < 2^63`), the planner uses step `C / 2` and the resulting
chunk list is gapless over `[0, D)` with its last chunk ending exactly at
`D`. -/
theorem calculateChunks_fallback_gapless (D C O : Int)
    (hOC : C ≤ O) (hO : O < 2 ^ 63) (hCD : C < D) (hC2 : 2 ≤ C)
    (hbound : D + C < 2 ^ 63) :
    stepSize C O = C.tdiv 2 ∧
    ∃ l, CalculateChunks (D.toNat + 1) D C O = some l ∧ l ≠ [] ∧
      (∃ c, l.getLast? = some c ∧ c.End = D) ∧
      (∀ t : Int, 0 ≤ t → t < D →
        ∃ j, ∃ hj : j < l.length, (l.get ⟨j, hj⟩).Start ≤ t ∧ t < (l.get ⟨j, hj⟩).End) := by
  have hs : stepSize C O = C.tdiv 2 := by
    simp only [stepSize]
    rw [wrap64_eq_self (C - O) (by omega) (by omega), if_pos (by omega)]
  have htd : C.tdiv 2 = C / 2 := Int.tdiv_eq_ediv (by omega) (by omega)
  have hspos : 0 < C.tdiv 2 := by omega
  have hsle : C.tdiv 2 ≤ C := by omega
  refine ⟨hs, ?_⟩
  rw [CalculateChunks, if_neg (by omega), hs]
  obtain ⟨l, hl, hne, -, -, hlast, hcover⟩ :=
    calcLoop_plan D C (C.tdiv 2) (D.toNat + 1) hspos hsle (by omega) (by omega) (by omega)
  exact ⟨l, hl, hne, hlast, hcover⟩

/-- Witness for the amended C7 at `D = 50`, `C = 6`, `O = 6`. -/
theorem calculateChunks_fallback_gapless_witness :
    (6 : Int) ≤ 6 ∧ (6 : Int) < 2 ^ 63 ∧ (6 : Int) < 50 ∧ (2 : Int) ≤ 6 ∧
    (50 : Int) + 6 < 2 ^ 63 ∧
    (stepSize 6 6 = (6 : Int).tdiv 2 ∧
      ∃ l, CalculateChunks ((50 : Int).toNat + 1) 50 6 6 = some l ∧ l ≠ [] ∧
        (∃ c, l.getLast? = some c ∧ c.End = 50) ∧
        (∀ t : Int, 0 ≤ t → t < 50 →
          ∃ j, ∃ hj : j < l.length, (l.get ⟨j, hj⟩).Start ≤ t ∧ t < (l.get ⟨j, hj⟩).End)) :=
  ⟨by decide, by decide, by decide, by decide, by decide,
    calculateChunks_fallback_gapless 50 6 6 (by decide) (by decide) (by decide) (by decide)
      (by decide)⟩

/-- C10 counterexample: at `D = 2^63 - 1`, `C = 2^62`, `O = 0` the effective
step `C - O = 2^62` is strictly positive, yet the loop's int64 `start` wraps
through `{0, 2^62, -2^63, -2^62}` and cycles forever — the claim that a
positive effective step implies termination is false of the program. -/
theorem calculateChunks_termination_cex :
    0 < stepSize (2 ^ 62) 0 ∧ ¬ TerminatesOn (2 ^ 63 - 1) (2 ^ 62) 0 := by
  refine ⟨by decide, ?_⟩
  rintro ⟨fuel, l, hl⟩
  rw [CalculateChunks, if_neg (by decide),
    show stepSize (2 ^ 62) 0 = 2 ^ 62 from by decide,
    calcLoop_overflow_cycle_none fuel 0 0 (Or.inl rfl)] at hl
  exact Option.noConfusion hl

/-- C10 (amended): `CalculateChunks` terminates whenever the computed
effective step is strictly positive **and** the iteration arithmetic cannot
overflow int64 (`D + step < 2^63`); the claim's positivity disjunction
(`C - O > 0`, or `C - O ≤ 0` with `C / 2 > 0`) yields exactly a positive
computed step when the subtraction itself does not wrap.  The positivity
precondition really is necessary: when the computed step is zero and the
generation loop is entered (`C < D` with `0 < D` and int64-representable `C`,
e.g. `C = 0 < D`), the loop never terminates. -/
theorem calculateChunks_termination (D C O : Int) :
    (0 < stepSize C O → D + stepSize C O < 2 ^ 63 → TerminatesOn D C O) ∧
    (stepSize C O = 0 → C < D → 0 < D → -(2 ^ 63) ≤ C → C < 2 ^ 63 →
      ¬ TerminatesOn D C O) := by
  constructor
  · intro hpos hbound
    rcases le_or_lt D C with hDC | hCD
    · exact ⟨1, _, by rw [CalculateChunks, if_pos hDC]⟩
    · refine ⟨D.toNat + 1, ?_⟩
      have hsome := calcLoop_isSome D C (stepSize C O) hpos hbound (D.toNat + 1) 0 0
        (by omega) (by omega)
      obtain ⟨l, hl⟩ := Option.isSome_iff_exists.mp hsome
      exact ⟨l, by rw [CalculateChunks, if_neg (by omega)]; exact hl⟩
  · rintro hzero hCD hD hC1 hC2 ⟨fuel, l, hl⟩
    rw [CalculateChunks, if_neg (by omega), hzero,
      calcLoop_step_zero_none D C hCD hD hC1 hC2 fuel 0] at hl
    exact Option.noConfusion hl

/-- Witness for the amended C10: a terminating instance (`D = 10`, `C = 3`,
`O = 1`) and a non-terminating one (`D = 5`, `C = 0`, `O = 0`). -/
theorem calculateChunks_termination_witness :
    TerminatesOn 10 3 1 ∧ ¬ TerminatesOn 5 0 0 :=
  ⟨(calculateChunks_termination 10 3 1).1 (by decide) (by decide),
    (calculateChunks_termination 5 0 0).2 (by decide) (by decide) (by decide) (by decide)
      (by decide)⟩

/-! ## LockTable: `processingTracker` (pkg/watcher/tracker.go) -/

/-- The Go `map[string]time.Time` of paths currently being processed,
modelled as an association list from path to acquisition time (`time.Time`
as an integer timestamp).  A Go map holds each key at most once;
`TrackerInv` records that invariant of the representation. -/
structure processingTracker where
  processing : List (String × Int)

/-- Representation invariant: the keys of the underlying map are distinct. -/
def TrackerInv (pt : processingTracker) : Prop :=
  (pt.processing.map Prod.fst).Nodup

/-- `processingTracker.TryLock` (tracker.go lines 22-32): if the path already
has an entry, return `false` and leave the table unchanged; otherwise insert
it with the current time and return `true`. -/
def TryLock (pt : processingTracker) (path : String) (now : Int) :
    Bool × processingTracker :=
  if (pt.processing.lookup path).isSome then (false, pt)
  else (true, ⟨(path, now) :: pt.processing⟩)

/-- `processingTracker.Unlock` (tracker.go lines 35-40): Go's `delete`
removes the entry for the path (of which a map holds at most one). -/
def Unlock (pt : processingTracker) (path : String) : processingTracker :=
  ⟨pt.processing.filter (fun e => e.1 ≠ path)⟩

/-- `processingTracker.IsLocked` (tracker.go lines 43-49). -/
def IsLocked (pt : processingTracker) (path : String) : Bool :=
  (pt.processing.lookup path).isSome

/-- The lock-table operations claim C2 quantifies over. -/
inductive TrackerOp
  | tryLock (path : String) (now : Int)
  | unlock (path : String)

/-- One lock-table operation. -/
def execOp (pt : processingTracker) : TrackerOp → processingTracker
  | .tryLock path now => (TryLock pt path now).2
  | .unlock path => Unlock pt path

/-- A sequence of lock-table operations. -/
def execOps (pt : processingTracker) (ops : List TrackerOp) : processingTracker :=
  ops.foldl execOp pt

/-- Number of live entries the table holds for `path`. -/
def entryCount (pt : processingTracker) (path : String) : Nat :=
  pt.processing.countP (fun e => e.1 == path)

theorem lookup_filter_ne_self {β : Type} (l : List (String × β)) (k : String) :
    (l.filter (fun e => e.1 ≠ k)).lookup k = none := by
  induction l with
  | nil => rfl
  | cons e l ih =>
    obtain ⟨e1, e2⟩ := e
    rw [List.filter_cons]
    by_cases h : e1 = k
    · rw [if_neg (by simpa using h)]
      exact ih
    · rw [if_pos (by simpa using h), List.lookup_cons]
      have hk : (k == e1) = false := by simpa using fun hc => h hc.symm
      simp only [hk]
      exact ih

theorem lookup_filter_ne_of_ne {β : Type} (l : List (String × β)) (k p : String)
    (hne : p ≠ k) : (l.filter (fun e => e.1 ≠ k)).lookup p = l.lookup p := by
  induction l with
  | nil => rfl
  | cons e l ih =>
    obtain ⟨e1, e2⟩ := e
    rw [List.filter_cons]
    by_cases h : e1 = k
    · rw [if_neg (by simpa using h)]
      rw [List.lookup_cons]
      have hp : (p == e1) = false := by
        simp only [beq_eq_false_iff_ne, ne_eq]
        exact fun hc => hne (h ▸ hc)
      simp only [hp]
      exact ih
    · rw [if_pos (by simpa using h), List.lookup_cons, List.lookup_cons]
      cases hpe : (p == e1)
      · simp only [hpe]; exact ih
      · simp only [hpe]

/-- A held lock survives any operation other than `unlock` on that path. -/
theorem isLocked_execOp (pt : processingTracker) (p : String) (o : TrackerOp)
    (ho : o ≠ TrackerOp.unlock p) (h : IsLocked pt p) : IsLocked (execOp pt o) p := by
  cases o with
  | tryLock q now =>
    simp only [execOp, TryLock]
    split
    · exact h
    · simp only [IsLocked, List.lookup_cons] at h ⊢
      cases hpq : (p == q) <;> simp [hpq, h]
  | unlock q =>
    have hq : q ≠ p := by rintro rfl; exact ho rfl
    simp only [execOp, Unlock, IsLocked] at h ⊢
    rw [lookup_filter_ne_of_ne _ q p (by exact fun hc => hq hc.symm)]
    exact h

/-- A held lock survives any operation sequence that never unlocks it. -/
theorem isLocked_execOps (p : String) (ops : List TrackerOp)
    (hops : TrackerOp.unlock p ∉ ops) :
    ∀ pt : processingTracker, IsLocked pt p → IsLocked (execOps pt ops) p := by
  induction ops with
  | nil => intro pt h; exact h
  | cons o ops ih =>
    intro pt h
    have ho : o ≠ TrackerOp.unlock p := fun hc => hops (hc ▸ List.mem_cons_self o ops)
    have hops' : TrackerOp.unlock p ∉ ops := fun hc => hops (List.mem_cons_of_mem o hc)
    exact ih hops' _ (isLocked_execOp pt p o ho h)

theorem countP_le_one_of_nodup (l : List (String × Int)) (p : String)
    (h : (l.map Prod.fst).Nodup) : l.countP (fun e => e.1 == p) ≤ 1 := by
  induction l with
  | nil => simp
  | cons e l ih =>
    rw [List.map_cons, List.nodup_cons] at h
    rw [List.countP_cons]
    by_cases he : e.1 = p
    · have hzero : l.countP (fun e => e.1 == p) = 0 := by
        rw [List.countP_eq_zero]
        intro a ha
        simp only [beq_iff_eq]
        intro hc
        have hmem : a.1 ∈ l.map Prod.fst := List.mem_map_of_mem Prod.fst ha
        rw [hc, ← he] at hmem
        exact h.1 hmem
      simp [he, hzero]
    · have : (e.1 == p) = false := by simpa using he
      simp only [this, if_neg]
      simpa using ih h.2

/-- C2: `TryLock` is exclusive — once `TryLock pt p` succeeds, every later
`TryLock` on `p` returns `false` across any sequence of lock/unlock
operations that never unlocks `p`; after `Unlock p` a later `TryLock p`
succeeds; `Unlock` is idempotent; each operation preserves key uniqueness,
under which the table holds at most one live entry per path. -/
theorem tryLock_exclusive (pt : processingTracker) (p : String) (now now2 : Int)
    (hinv : TrackerInv pt) :
    ((TryLock pt p now).1 = true →
      ∀ ops : List TrackerOp, TrackerOp.unlock p ∉ ops →
        (TryLock (execOps (TryLock pt p now).2 ops) p now2).1 = false) ∧
    (TryLock (Unlock pt p) p now2).1 = true ∧
    Unlock (Unlock pt p) p = Unlock pt p ∧
    (∀ o, TrackerInv (execOp pt o)) ∧
    entryCount pt p ≤ 1 := by
  refine ⟨?_, ?_, ?_, ?_, countP_le_one_of_nodup _ p hinv⟩
  · intro htrue ops hops
    have hnone : (pt.processing.lookup p).isSome = false := by
      by_contra hc
      rw [TryLock, if_pos (by simpa using hc)] at htrue
      exact Bool.noConfusion htrue
    have hstate : (TryLock pt p now).2 = ⟨(p, now) :: pt.processing⟩ := by
      rw [TryLock, if_neg (by simp [hnone])]
    have hlocked : IsLocked (TryLock pt p now).2 p = true := by
      rw [hstate]
      simp [IsLocked, List.lookup_cons]
    have := isLocked_execOps p ops hops _ hlocked
    rw [TryLock, if_pos (by simpa [IsLocked] using this)]
  · rw [TryLock, if_neg (by simp [Unlock, lookup_filter_ne_self])]
  · show Unlock ⟨pt.processing.filter (fun e => e.1 ≠ p)⟩ p = _
    simp only [Unlock, processingTracker.mk.injEq]
    exact List.filter_eq_self.mpr (fun a ha => (List.mem_filter.mp ha).2)
  · intro o
    cases o with
    | tryLock q now' =>
      simp only [execOp, TryLock]
      split
      · exact hinv
      · rename_i hq
        simp only [TrackerInv, List.map_cons, List.nodup_cons]
        refine ⟨?_, hinv⟩
        intro hmem
        obtain ⟨e, he, he1⟩ := List.mem_map.mp hmem
        have hnone : pt.processing.lookup q = none :=
          Option.not_isSome_iff_eq_none.mp (by simpa using hq)
        have hbne := List.lookup_eq_none_iff.mp hnone e he
        rw [he1] at hbne
        simp at hbne
    | unlock q =>
      exact List.Nodup.sublist (List.Sublist.map Prod.fst (List.filter_sublist _)) hinv

/-- Witness for C2 on the empty tracker with path `"a"`. -/
theorem tryLock_exclusive_witness :
    TrackerInv ⟨[]⟩ ∧
    (((TryLock ⟨[]⟩ "a" 0).1 = true →
      ∀ ops : List TrackerOp, TrackerOp.unlock "a" ∉ ops →
        (TryLock (execOps (TryLock ⟨[]⟩ "a" 0).2 ops) "a" 1).1 = false) ∧
    (TryLock (Unlock ⟨[]⟩ "a") "a" 1).1 = true ∧
    Unlock (Unlock ⟨[]⟩ "a") "a" = Unlock ⟨[]⟩ "a" ∧
    (∀ o, TrackerInv (execOp ⟨[]⟩ o)) ∧
    entryCount ⟨[]⟩ "a" ≤ 1) :=
  ⟨by simp [TrackerInv], tryLock_exclusive ⟨[]⟩ "a" 0 1 (by simp [TrackerInv])⟩

/-! ## PersistentHistory: `processingHistory` (pkg/watcher/history.go)

The BoltDB store with its two buckets `processed` and `failed` is modelled as
a pair of association lists keyed by the file hash; a bucket `Put` replaces
the entry for the key, a `Delete` removes it, and each `db.Update` closure is
one state transition (Bolt runs it as a single serialized read-write
transaction).  JSON (un)marshalling of the stored records is modelled as the
identity on the record values. -/

/-- `watcher.ProcessedInfo`, with `time.Time` and `time.Duration` as
integers. -/
structure ProcessedInfo where
  FileHash : String
  FilePath : String
  ProcessedAt : Int
  OutputPath : String
  Duration : Int
  FileSize : Int

/-- `watcher.FailedInfo`. -/
structure FailedInfo where
  FileHash : String
  FilePath : String
  FailedAt : Int
  Error : String
  RetryCount : Int

/-- A Bolt bucket `Put`: store `v` under `k`, replacing any previous entry. -/
def bucketPut {β : Type} (l : List (String × β)) (k : String) (v : β) :
    List (String × β) :=
  (k, v) :: l.filter (fun e => e.1 ≠ k)

/-- A Bolt bucket `Delete`: remove the entry for `k` if present. -/
def bucketDelete {β : Type} (l : List (String × β)) (k : String) :
    List (String × β) :=
  l.filter (fun e => e.1 ≠ k)

/-- The two buckets of the history database. -/
structure processingHistory where
  processed : List (String × ProcessedInfo)
  failed : List (String × FailedInfo)

/-- `processingHistory.IsProcessed` (history.go lines 49-61): membership in
the `processed` bucket. -/
def IsProcessed (ph : processingHistory) (fileHash : String) : Bool :=
  (ph.processed.lookup fileHash).isSome

/-- `processingHistory.RecordProcessed` (history.go lines 64-88): one
transaction that puts the record into `processed` and deletes any entry for
the same hash from `failed`. -/
def RecordProcessed (ph : processingHistory) (fileHash : String)
    (info : ProcessedInfo) : processingHistory :=
  { processed := bucketPut ph.processed fileHash info
    failed := bucketDelete ph.failed fileHash }

/-- `processingHistory.RecordFailed` (history.go lines 91-118): one
transaction that looks up any existing failed entry for the hash, bumps the
incoming record's `RetryCount` to `existing.RetryCount + 1` if one exists
(otherwise the record is stored with whatever `RetryCount` the caller passed
in), and puts the result into `failed`. -/
def RecordFailed (ph : processingHistory) (fileHash : String)
    (info : FailedInfo) : processingHistory :=
  let stored :=
    match ph.failed.lookup fileHash with
    | some existing => { info with RetryCount := existing.RetryCount + 1 }
    | none => info
  { ph with failed := bucketPut ph.failed fileHash stored }

theorem lookup_bucketPut_self {β : Type} (l : List (String × β)) (k : String) (v : β) :
    (bucketPut l k v).lookup k = some v := by
  rw [bucketPut, List.lookup_cons]
  simp

/-- C3: after `RecordProcessed fp info`, `IsProcessed fp` holds and the
`failed` bucket no longer has an entry for `fp`; both effects are one state
transition of the store (the single `db.Update` transaction of the Go
code). -/
theorem recordProcessed_isProcessed_clears_failed (ph : processingHistory)
    (fp : String) (info : ProcessedInfo) :
    IsProcessed (RecordProcessed ph fp info) fp = true ∧
    (RecordProcessed ph fp info).failed.lookup fp = none := by
  constructor
  · rw [IsProcessed]
    show ((bucketPut ph.processed fp info).lookup fp).isSome = true
    rw [lookup_bucketPut_self]
    rfl
  · show (bucketDelete ph.failed fp).lookup fp = none
    exact lookup_filter_ne_self ph.failed fp

/-- C4 counterexample: on a hash with no existing failed entry the code
stores the caller's `RetryCount` unchanged — it does not reset it to `0`.
Passing a record with `RetryCount = 7` leaves `7` in the store, so "otherwise
it is 0" fails. -/
theorem recordFailed_retry_cex :
    ((RecordFailed ⟨[], []⟩ "h" ⟨"h", "f", 0, "boom", 7⟩).failed.lookup "h").map
        FailedInfo.RetryCount = some 7 ∧ (7 : Int) ≠ 0 := by
  exact ⟨rfl, by decide⟩

/-- C4 (amended): when a failed entry already exists for the hash, the stored
`RetryCount` is the existing one plus one; when none exists, the stored
`RetryCount` is the one the caller passed in (the pipeline always passes a
zero-valued record).  Hence two successive `RecordFailed` calls whose first
record carries `RetryCount = 0` store `0` and then `1`. -/
theorem recordFailed_retry_increments (ph : processingHistory) (fp : String)
    (r1 r2 : FailedInfo) (hnone : ph.failed.lookup fp = none)
    (h0 : r1.RetryCount = 0) :
    (((RecordFailed ph fp r1).failed.lookup fp).map FailedInfo.RetryCount = some 0) ∧
    (((RecordFailed (RecordFailed ph fp r1) fp r2).failed.lookup fp).map
        FailedInfo.RetryCount = some 1) ∧
    (∀ (ph' : processingHistory) (ex : FailedInfo) (r : FailedInfo),
      ph'.failed.lookup fp = some ex →
      ((RecordFailed ph' fp r).failed.lookup fp).map FailedInfo.RetryCount
        = some (ex.RetryCount + 1)) := by
  have h1 : (RecordFailed ph fp r1).failed.lookup fp = some r1 := by
    rw [RecordFailed]
    simp only [hnone]
    exact lookup_bucketPut_self _ _ _
  refine ⟨by rw [h1]; simp [h0], ?_, ?_⟩
  · rw [RecordFailed]
    simp only [h1]
    rw [lookup_bucketPut_self]
    simp [h0]
  · intro ph' ex r hex
    rw [RecordFailed]
    simp only [hex]
    rw [lookup_bucketPut_self]
    rfl

/-- Witness for the amended C4 on the empty history. -/
theorem recordFailed_retry_increments_witness :
    (processingHistory.failed ⟨[], []⟩).lookup "h" = none ∧
    FailedInfo.RetryCount ⟨"h", "f", 0, "e1", 0⟩ = 0 ∧
    (((RecordFailed ⟨[], []⟩ "h" ⟨"h", "f", 0, "e1", 0⟩).failed.lookup "h").map
        FailedInfo.RetryCount = some 0) ∧
    (((RecordFailed (RecordFailed ⟨[], []⟩ "h" ⟨"h", "f", 0, "e1", 0⟩) "h"
        ⟨"h", "f", 1, "e2", 0⟩).failed.lookup "h").map FailedInfo.RetryCount = some 1) ∧
    (∀ (ph' : processingHistory) (ex : FailedInfo) (r : FailedInfo),
      ph'.failed.lookup "h" = some ex →
      ((RecordFailed ph' "h" r).failed.lookup "h").map FailedInfo.RetryCount
        = some (ex.RetryCount + 1)) :=
  ⟨rfl, rfl, recordFailed_retry_increments ⟨[], []⟩ "h" ⟨"h", "f", 0, "e1", 0⟩
    ⟨"h", "f", 1, "e2", 0⟩ rfl rfl⟩

/-! ## ChunkMerger: `ChunkMergerImpl` (pkg/transcriber/merger.go)

Timestamps (`time.Duration`) are `Int` nanoseconds.  The `float32`
`Confidence` field is carried opaquely as a `Float` — the merger never
computes with it.  The Go metadata `map[string]interface{}` is an association
list of the values the merger actually stores (strings and ints); map
insertion is `bucketPut`. -/

/-- Values the merger stores into the metadata `map[string]interface{}`. -/
inductive MetaValue
  | int (n : Int)
  | str (s : String)

/-- `providers.TranscriptionSegment`. -/
structure TranscriptionSegment where
  Text : String
  Start : Int
  End : Int
  SpeakerID : String
  Confidence : Float

/-- `providers.TranscriptionResult` — one chunk's transcript. -/
structure TranscriptionResult where
  Text : String
  Segments : List TranscriptionSegment
  Language : String
  Duration : Int
  ChunkID : Int
  Metadata : List (String × MetaValue)

/-- `transcriber.TranscribeResult`, restricted to the fields the merger
writes (`FilePath`, `ChunkCount`, `ProcessTime`, `Provider` stay zero-valued
in both `convertToTranscribeResult` and `mergeWithOverlap` and are filled in
later by the orchestrator). -/
structure TranscribeResult where
  Text : String
  Segments : List TranscriptionSegment
  Language : String
  Duration : Int
  Metadata : List (String × MetaValue)

/-- `ChunkMergerImpl.overlapThreshold`: 30 s in nanoseconds
(merger.go line 21). -/
def overlapThreshold : Int := 30000000000

/-- `getLastTextPart` (merger.go lines 212-217).  Go slices the last `length`
bytes; modelled as the last `length` characters — they coincide on ASCII
text, and no theorem below depends on the byte/char distinction. -/
def getLastTextPart (text : String) (length : Nat) : String :=
  if text.data.length ≤ length then text
  else String.mk (text.data.drop (text.data.length - length))

/-- `getFirstTextPart` (merger.go lines 219-224), same byte/char remark. -/
def getFirstTextPart (text : String) (length : Nat) : String :=
  if text.data.length ≤ length then text else String.mk (text.data.take length)

/-- Splitter behind Go's `strings.Fields`: maximal runs of non-whitespace
characters (`acc` holds the current run, reversed). -/
def goFieldsAux : List Char → List Char → List String
  | [], acc => if acc.isEmpty then [] else [String.mk acc.reverse]
  | c :: cs, acc =>
    if c.isWhitespace then
      if acc.isEmpty then goFieldsAux cs []
      else String.mk acc.reverse :: goFieldsAux cs []
    else goFieldsAux cs (c :: acc)

/-- Go's `strings.Fields`. -/
def goFields (s : String) : List String :=
  goFieldsAux s.data []

/-- Go's `strings.ToLower` (character-wise; the texts involved are plain
words). -/
def goToLower (s : String) : String :=
  String.mk (s.data.map Char.toLower)

/-- Go's `strings.TrimSpace`: strip leading and trailing whitespace. -/
def goTrimSpace (s : String) : String :=
  String.mk
    (((s.data.dropWhile Char.isWhitespace).reverse.dropWhile Char.isWhitespace).reverse)

/-- The test `calculateTextSimilarity text1 text2 > 0.3` of merger.go
(lines 226-252 and 79).  Go computes
`float64(commonWords) / float64(len(words2)) > 0.3`; because a rational
`c/n` with the small `n` occurring here is never within the double-rounding
error of `0.3`, that float comparison agrees exactly with the integer test
`10*c > 3*n`, which is what is modelled. -/
def similarityExceedsThreshold (text1 text2 : String) : Bool :=
  if text1 = "" ∨ text2 = "" then false
  else
    let words1 := goFields (goToLower text1)
    let words2 := goFields (goToLower text2)
    if words1.isEmpty ∨ words2.isEmpty then false
    else
      let commonWords := words2.countP (fun w => words1.contains w)
      10 * commonWords > 3 * words2.length

/-- `segmentsOverlap` (merger.go lines 254-256). -/
def segmentsOverlap (seg1 seg2 : TranscriptionSegment) : Bool :=
  seg1.End > seg2.Start ∧ seg2.End > seg1.Start

/-- The nested search loops of `DetectOverlap` (merger.go lines 83-97): for
each segment of chunk 1 from the last backwards, the first overlapping
segment of chunk 2 sets `(overlapStart, overlapEnd)`; the outer loop stops
once `overlapEnd > 0`.  `segs1rev` is chunk 1's segment list already
reversed. -/
def detectOverlapScan (segs2 : List TranscriptionSegment) :
    List TranscriptionSegment → Int × Int → Int × Int
  | [], acc => acc
  | seg1 :: rest, acc =>
    let acc' :=
      match segs2.find? (fun seg2 => segmentsOverlap seg1 seg2) with
      | some seg2 => (seg1.Start, seg2.End)
      | none => acc
    if acc'.2 > 0 then acc' else detectOverlapScan segs2 rest acc'

/-- `ChunkMergerImpl.DetectOverlap` (merger.go lines 60-102).  The Go version
also returns an `error` that is always `nil`; only the bounds are
modelled. -/
def DetectOverlap (chunk1 chunk2 : TranscriptionResult) : Int × Int :=
  if chunk1.Segments.isEmpty ∨ chunk2.Segments.isEmpty then (0, 0)
  else
    let chunk1LastPart := getLastTextPart chunk1.Text 100
    let chunk2FirstPart := getFirstTextPart chunk2.Text 100
    if similarityExceedsThreshold chunk1LastPart chunk2FirstPart then
      detectOverlapScan chunk2.Segments chunk1.Segments.reverse (0, 0)
    else (0, 0)

/-- Sorting by segment start time (merger.go lines 202-206).  Go's
`sort.Slice` is an unstable sort; `insertionSort` produces one admissible
result, and no theorem below depends on the order of ties. -/
def sortSegmentsByStart (segs : List TranscriptionSegment) :
    List TranscriptionSegment :=
  segs.insertionSort (fun a b => a.Start ≤ b.Start)

/-- `mergeOverlappingSegments` (merger.go lines 185-208): keep existing
segments ending at or before the overlap, add new segments starting at or
after it, and re-sort by start time. -/
def mergeOverlappingSegments (existingSegments newSegments : List TranscriptionSegment)
    (overlapStart overlapEnd : Int) : List TranscriptionSegment :=
  sortSegmentsByStart
    (existingSegments.filter (fun seg => seg.End ≤ overlapStart) ++
      newSegments.filter (fun seg => seg.Start ≥ overlapEnd))

/-- `removeOverlapFromText` (merger.go lines 258-262): the admitted
simplification — the text is returned unchanged. -/
def removeOverlapFromText (text : String) (overlapStart overlapEnd : Int) : String :=
  let _ := overlapStart
  let _ := overlapEnd
  text

/-- The loop state of `mergeWithOverlap`: accumulated segments, accumulated
text and the running max end time. -/
structure MergeState where
  allSegments : List TranscriptionSegment
  fullText : String
  totalDuration : Int

/-- One iteration of the merge loop (merger.go lines 120-157), acting on the
pair (previous chunk, current chunk).  The `err ≠ nil` arm of the Go
`switch` is dead code — `DetectOverlap` always returns a `nil` error. -/
def mergeStep (st : MergeState) (pc : TranscriptionResult × TranscriptionResult) :
    MergeState :=
  let previousChunk := pc.1
  let currentChunk := pc.2
  let ov := DetectOverlap previousChunk currentChunk
  let overlapStart := ov.1
  let overlapEnd := ov.2
  let st1 :=
    if overlapEnd > overlapStart ∧ overlapEnd - overlapStart > overlapThreshold then
      let mergedSegments :=
        mergeOverlappingSegments st.allSegments currentChunk.Segments overlapStart overlapEnd
      let cleanText := removeOverlapFromText currentChunk.Text overlapStart overlapEnd
      { st with
        allSegments := mergedSegments
        fullText :=
          if cleanText ≠ "" then st.fullText ++ " " ++ cleanText else st.fullText }
    else
      { st with
        allSegments := st.allSegments ++ currentChunk.Segments
        fullText := st.fullText ++ " " ++ currentChunk.Text }
  match currentChunk.Segments.getLast? with
  | some lastSeg =>
    if lastSeg.End > st1.totalDuration then { st1 with totalDuration := lastSeg.End }
    else st1
  | none => st1

/-- The language/metadata loop of `mergeWithOverlap` (merger.go lines
167-176): `Language` takes the last non-empty value, metadata maps merge
key-wise with later chunks overwriting. -/
def mergeMetadataFold (chunks : List TranscriptionResult) (r0 : TranscribeResult) :
    TranscribeResult :=
  chunks.foldl
    (fun r c =>
      { r with
        Language := if c.Language ≠ "" then c.Language else r.Language
        Metadata := c.Metadata.foldl (fun m kv => bucketPut m kv.1 kv.2) r.Metadata })
    r0

/-- `ChunkMergerImpl.mergeWithOverlap` (merger.go lines 105-182), for the
already sorted and filtered chunk list (the caller guarantees at least two
chunks; `[]` is unreachable). -/
def mergeWithOverlap (chunks : List TranscriptionResult) : TranscribeResult :=
  match chunks with
  | [] => ⟨"", [], "", 0, []⟩
  | firstChunk :: rest =>
    let st0 : MergeState :=
      { allSegments := firstChunk.Segments
        fullText := firstChunk.Text
        totalDuration :=
          match firstChunk.Segments.getLast? with
          | some s => s.End
          | none => 0 }
    let stF := ((firstChunk :: rest).zip rest).foldl mergeStep st0
    let base : TranscribeResult :=
      { Text := goTrimSpace stF.fullText
        Segments := stF.allSegments
        Language := ""
        Duration := stF.totalDuration
        Metadata := [] }
    let withMeta := mergeMetadataFold (firstChunk :: rest) base
    { withMeta with
      Metadata :=
        bucketPut
          (bucketPut withMeta.Metadata "merged_chunks" (.int (firstChunk :: rest).length))
          "merge_method" (.str "overlap_detection") }

/-- `convertToTranscribeResult` (merger.go lines 264-272). -/
def convertToTranscribeResult (chunk : TranscriptionResult) : TranscribeResult :=
  { Text := chunk.Text
    Segments := chunk.Segments
    Language := chunk.Language
    Duration := chunk.Duration
    Metadata := chunk.Metadata }

/-- The `sort.Slice` call of `MergeChunks` (merger.go lines 32-34), on a list
whose entries are all non-nil: sorted by `ChunkID` (tie order is
unspecified in Go and irrelevant below). -/
def sortChunksByID (chunks : List TranscriptionResult) : List TranscriptionResult :=
  chunks.insertionSort (fun a b => a.ChunkID ≤ b.ChunkID)

/-- Outcome of `MergeChunks`: a result, an `error` return, or a runtime
panic. -/
inductive MergeOutcome
  | ok (result : TranscribeResult)
  | error (msg : String)
  | panic

/-- `ChunkMergerImpl.MergeChunks` (merger.go lines 26-57).  A Go slice of
`*TranscriptionResult` is a `List (Option TranscriptionResult)`.  The source
sorts **before** filtering out nil entries, and the sort comparator reads
`chunks[i].ChunkID`: with two or more entries of which one is nil, the
comparator dereferences a nil pointer (Go's sort compares every element at
least once), which is a runtime panic — the `.panic` branch.  Otherwise
sorting commutes with dropping the (at most one, unsorted) nil, so the model
filters first. -/
def MergeChunks (chunks : List (Option TranscriptionResult)) : MergeOutcome :=
  if chunks.length = 0 then .error "no chunks to merge"
  else if 2 ≤ chunks.length ∧ chunks.any (fun c => c.isNone) then .panic
  else
    let sorted := sortChunksByID (chunks.filterMap id)
    let validChunks := sorted.filter (fun c => c.Text ≠ "")
    match validChunks with
    | [] => .error "no valid chunks to merge"
    | [single] => .ok (convertToTranscribeResult single)
    | _ => .ok (mergeWithOverlap validChunks)

/-- Projection used to state duration facts about a merge outcome. -/
def MergeOutcome.durationOf : MergeOutcome → Option Int
  | .ok r => some r.Duration
  | .error _ => none
  | .panic => none

/-- The quantity claim C9 speaks about, written from the spec's words: the
maximum segment end time observed across all segments of all (non-nil) input
chunks, `0` when there are none. -/
def specMaxSegmentEnd (chunks : List (Option TranscriptionResult)) : Int :=
  ((chunks.filterMap id).flatMap (fun c => c.Segments)).foldl
    (fun d s => max d s.End) 0

/-! ## ChunkScheduler: timestamp adjustment in `transcribeChunk` -/

/-- The timestamp-adjustment step of `TranscriberImpl.transcribeChunk`
(transcriber.go): after the provider returns, every segment's `Start` and
`End` are shifted by the chunk's start offset (the Go code guards on
`len(result.Segments) > 0`, which only skips an empty loop). -/
def adjustTimestamps (chunkStart : Int) (segments : List TranscriptionSegment) :
    List TranscriptionSegment :=
  if segments.length > 0 then
    segments.map (fun s =>
      { s with Start := s.Start + chunkStart, End := s.End + chunkStart })
  else segments

/-! ## Theorems about the merger and the scheduler -/

/-- C8: the timestamp adjustment shifts every returned segment's start and
end by exactly the chunk's start offset, keeping the segment count — so the
segments handed to the merger are absolute to the original file's
timeline. -/
theorem adjustTimestamps_shifts (chunkStart : Int)
    (segments : List TranscriptionSegment) (i : Nat) :
    (adjustTimestamps chunkStart segments).length = segments.length ∧
    (adjustTimestamps chunkStart segments)[i]?.map TranscriptionSegment.Start
      = segments[i]?.map (fun s => s.Start + chunkStart) ∧
    (adjustTimestamps chunkStart segments)[i]?.map TranscriptionSegment.End
      = segments[i]?.map (fun s => s.End + chunkStart) := by
  rw [adjustTimestamps]
  by_cases h : segments.length > 0
  · rw [if_pos h]
    refine ⟨by simp, ?_, ?_⟩ <;>
      · rw [List.getElem?_map, Option.map_map]
        cases segments[i]? <;> rfl
  · rw [if_neg h]
    have : segments = [] := List.length_eq_zero.mp (by omega)
    subst this
    simp

/-- A chunk list in which every entry is non-nil has no `isNone` entry, so
the defensive sort cannot panic. -/
theorem mergeChunks_no_panic (chunks : List (Option TranscriptionResult))
    (hsome : ∀ x ∈ chunks, x.isSome = true) :
    ¬ (2 ≤ chunks.length ∧ chunks.any (fun c => c.isNone) = true) := by
  rintro ⟨-, hany⟩
  obtain ⟨x, hx, hxn⟩ := List.any_eq_true.mp hany
  have h1 := hsome x hx
  simp only [Option.isNone_iff_eq_none] at hxn
  subst hxn
  simp at h1

/-- C5 (amended): if every entry of the input list is non-nil and exactly one
chunk is valid (non-empty text), `MergeChunks` returns that chunk unmodified:
text, segments, language, duration and metadata are the valid chunk's
fields. -/
theorem mergeChunks_single_valid_identity (chunks : List (Option TranscriptionResult))
    (c : TranscriptionResult) (hsome : ∀ x ∈ chunks, x.isSome = true)
    (hvalid : (chunks.filterMap id).filter (fun c => c.Text ≠ "") = [c]) :
    MergeChunks chunks = .ok ⟨c.Text, c.Segments, c.Language, c.Duration, c.Metadata⟩ := by
  have hne : chunks ≠ [] := by
    rintro rfl
    simp at hvalid
  rw [MergeChunks,
    if_neg (fun h => hne (List.length_eq_zero.mp h)),
    if_neg (mergeChunks_no_panic chunks hsome)]
  have hperm : sortChunksByID (chunks.filterMap id) |>.Perm (chunks.filterMap id) :=
    List.perm_insertionSort _ _
  have hfilter : (sortChunksByID (chunks.filterMap id)).filter (fun c => c.Text ≠ "")
      = [c] := by
    refine List.perm_singleton.mp ?_
    rw [← hvalid]
    exact hperm.filter _
  simp only [hfilter]
  rfl

/-- A valid single chunk used in the C5 theorems. -/
def wChunk : TranscriptionResult :=
  ⟨"hi", [], "en", 5, 0, []⟩

/-- C5 counterexample: `[valid chunk, nil]` has exactly one valid chunk, but
`MergeChunks` panics — the `sort.Slice` comparator reads `ChunkID` through
the nil pointer — instead of returning the valid chunk. -/
theorem mergeChunks_single_valid_cex :
    MergeChunks [some wChunk, none] = .panic := rfl

/-- Witness for the amended C5 on the singleton list of one valid chunk. -/
theorem mergeChunks_single_valid_identity_witness :
    (∀ x ∈ [some wChunk], x.isSome = true) ∧
    ([some wChunk].filterMap id).filter (fun c => c.Text ≠ "") = [wChunk] ∧
    MergeChunks [some wChunk] = .ok ⟨"hi", [], "en", 5, []⟩ :=
  ⟨by decide, rfl,
    mergeChunks_single_valid_identity [some wChunk] wChunk (by decide) rfl⟩

/-- C6 (amended): on an input with no valid chunk, `MergeChunks` fails with
"no chunks to merge" when the list is empty; with "no valid chunks to merge"
when the list is non-empty with no nil entry, or is a single entry; and
panics (nil dereference in the sort comparator) when the list has two or
more entries one of which is nil. -/
theorem mergeChunks_all_invalid (chunks : List (Option TranscriptionResult))
    (hinv : ∀ x ∈ chunks, x = none ∨ ∃ c, x = some c ∧ c.Text = "") :
    (chunks = [] → MergeChunks chunks = .error "no chunks to merge") ∧
    (chunks ≠ [] → (∀ x ∈ chunks, x.isSome = true) →
      MergeChunks chunks = .error "no valid chunks to merge") ∧
    (chunks.length = 1 → MergeChunks chunks = .error "no valid chunks to merge") ∧
    (2 ≤ chunks.length → (∃ x ∈ chunks, x = none) → MergeChunks chunks = .panic) := by
  have hfilter : ∀ l : List (Option TranscriptionResult),
      (∀ x ∈ l, x = none ∨ ∃ c, x = some c ∧ c.Text = "") →
      (sortChunksByID (l.filterMap id)).filter (fun c => c.Text ≠ "") = [] := by
    intro l hl
    rw [List.filter_eq_nil_iff]
    intro a ha
    have hmem : a ∈ l.filterMap id :=
      ((List.perm_insertionSort _ _).mem_iff).mp ha
    obtain ⟨x, hx, hxa⟩ := List.mem_filterMap.mp hmem
    rcases hl x hx with h | ⟨cc, hceq, hct⟩
    · rw [h] at hxa; exact Option.noConfusion hxa
    · rw [hceq] at hxa
      simp only [id] at hxa
      have : cc = a := Option.some.inj hxa
      subst this
      simp [hct]
  refine ⟨?_, ?_, ?_, ?_⟩
  · rintro rfl; rfl
  · intro hne hsome
    rw [MergeChunks,
      if_neg (fun h => hne (List.length_eq_zero.mp h)),
      if_neg (mergeChunks_no_panic chunks hsome)]
    simp only [hfilter chunks hinv]
  · intro h1
    obtain ⟨x, hx⟩ : ∃ x, chunks = [x] := by
      cases chunks with
      | nil => simp at h1
      | cons a t =>
        cases t with
        | nil => exact ⟨a, rfl⟩
        | cons b t => simp at h1
    subst hx
    rw [MergeChunks, if_neg (by simp), if_neg (by simp)]
    simp only [hfilter [x] hinv]
  · intro h2 ⟨x, hx, hxn⟩
    rw [MergeChunks, if_neg (by omega),
      if_pos ⟨h2, List.any_eq_true.mpr ⟨x, hx, by simp [hxn]⟩⟩]

/-- An empty-text chunk used in the C6 witness. -/
def eChunk : TranscriptionResult :=
  ⟨"", [], "", 0, 0, []⟩

/-- C6 counterexample: a two-entry list of nil chunks has no valid chunk, yet
`MergeChunks` panics in the defensive sort instead of failing with the
"no valid chunks" error. -/
theorem mergeChunks_all_invalid_cex :
    MergeChunks [none, none] = .panic := rfl

/-- Witness for the amended C6 on a singleton empty-text chunk. -/
theorem mergeChunks_all_invalid_witness :
    MergeChunks [some eChunk] = .error "no valid chunks to merge" :=
  (mergeChunks_all_invalid [some eChunk]
      (by
        intro x hx
        simp only [List.mem_singleton] at hx
        subst hx
        exact Or.inr ⟨eChunk, rfl, rfl⟩)).2.2.1 rfl

/-- The duration contribution of one chunk in the merge loop: the running
duration is bumped to the chunk's final segment's end when that is larger
(merger.go lines 150-156). -/
def dstep (d : Int) (c : TranscriptionResult) : Int :=
  match c.Segments.getLast? with
  | some s => max d s.End
  | none => d

theorem mergeStep_totalDuration (st : MergeState)
    (pc : TranscriptionResult × TranscriptionResult) :
    (mergeStep st pc).totalDuration = dstep st.totalDuration pc.2 := by
  simp only [mergeStep, dstep]
  cases hl : pc.2.Segments.getLast? with
  | none =>
    show (if _ then _ else _ : MergeState).totalDuration = st.totalDuration
    split <;> rfl
  | some lastSeg =>
    by_cases hov : (DetectOverlap pc.1 pc.2).2 > (DetectOverlap pc.1 pc.2).1 ∧
        (DetectOverlap pc.1 pc.2).2 - (DetectOverlap pc.1 pc.2).1 > overlapThreshold
    · simp only [if_pos hov]
      split <;> rename_i h
      · have h' : st.totalDuration < lastSeg.End := h
        show lastSeg.End = max st.totalDuration lastSeg.End
        rw [max_eq_right (le_of_lt h')]
      · have h' : ¬ st.totalDuration < lastSeg.End := h
        show st.totalDuration = max st.totalDuration lastSeg.End
        rw [max_eq_left (by omega)]
    · simp only [if_neg hov]
      split <;> rename_i h
      · have h' : st.totalDuration < lastSeg.End := h
        show lastSeg.End = max st.totalDuration lastSeg.End
        rw [max_eq_right (le_of_lt h')]
      · have h' : ¬ st.totalDuration < lastSeg.End := h
        show st.totalDuration = max st.totalDuration lastSeg.End
        rw [max_eq_left (by omega)]

theorem foldl_mergeStep_totalDuration
    (pairs : List (TranscriptionResult × TranscriptionResult)) :
    ∀ st : MergeState,
      (pairs.foldl mergeStep st).totalDuration
        = (pairs.map Prod.snd).foldl dstep st.totalDuration := by
  induction pairs with
  | nil => intro st; rfl
  | cons p ps ih =>
    intro st
    rw [List.foldl_cons, List.map_cons, List.foldl_cons, ih, mergeStep_totalDuration]

theorem foldl_max_const (segs : List TranscriptionSegment) (m : Int) :
    ∀ d : Int, (∀ s ∈ segs, s.End ≤ m) → m ≤ d →
      segs.foldl (fun d s => max d s.End) d = d := by
  induction segs with
  | nil => intro d _ _; rfl
  | cons s segs ih =>
    intro d hub hd
    rw [List.foldl_cons]
    have h1 : s.End ≤ m := hub s (List.mem_cons_self s segs)
    rw [max_eq_left (by omega)]
    exact ih d (fun t ht => hub t (List.mem_cons_of_mem s ht)) hd

theorem foldl_max_end (segs : List TranscriptionSegment)
    (last : TranscriptionSegment) :
    ∀ d : Int, last ∈ segs → (∀ s ∈ segs, s.End ≤ last.End) →
      segs.foldl (fun d s => max d s.End) d = max d last.End := by
  induction segs with
  | nil => intro d hmem; cases hmem
  | cons s segs ih =>
    intro d hmem hub
    rw [List.foldl_cons]
    rcases List.mem_cons.mp hmem with h | h
    · rw [h] at hub ⊢
      exact foldl_max_const segs s.End (max d s.End)
        (fun t ht => hub t (List.mem_cons_of_mem _ ht)) (le_max_right _ _)
    · rw [ih (max d s.End) h (fun t ht => hub t (List.mem_cons_of_mem _ ht))]
      have h1 : s.End ≤ last.End := hub s (List.mem_cons_self _ _)
      rw [max_assoc, max_eq_right h1]

theorem mem_of_getLast?_eq {α : Type} (l : List α) (a : α)
    (h : l.getLast? = some a) : a ∈ l := by
  rw [List.getLast?_eq_getElem?] at h
  have hlen : l.length - 1 < l.length := by
    cases l with
    | nil => simp at h
    | cons x t => simp
  rw [List.getElem?_eq_getElem hlen] at h
  have hmem := List.getElem_mem hlen
  rwa [Option.some.inj h] at hmem

theorem foldl_dstep_eq (l : List TranscriptionResult)
    (hw : ∀ c ∈ l, ∀ s ∈ c.Segments, ∀ last, c.Segments.getLast? = some last →
      s.End ≤ last.End) :
    ∀ d : Int,
      l.foldl dstep d
        = (l.flatMap (fun c => c.Segments)).foldl (fun d s => max d s.End) d := by
  induction l with
  | nil => intro d; rfl
  | cons c l ih =>
    intro d
    rw [List.foldl_cons, List.flatMap_cons, List.foldl_append,
      ih (fun c' hc' => hw c' (List.mem_cons_of_mem _ hc'))]
    congr 1
    rw [dstep]
    cases hl : c.Segments.getLast? with
    | none =>
      have hnil : c.Segments = [] := List.getLast?_eq_none_iff.mp hl
      rw [hnil]
      rfl
    | some last =>
      have hmem := mem_of_getLast?_eq _ _ hl
      have hub : ∀ s ∈ c.Segments, s.End ≤ last.End :=
        fun s hs => hw c (List.mem_cons_self _ _) s hs last hl
      exact (foldl_max_end c.Segments last d hmem hub).symm

theorem mergeMetadataFold_duration (l : List TranscriptionResult) :
    ∀ r : TranscribeResult, (mergeMetadataFold l r).Duration = r.Duration := by
  induction l with
  | nil => intro r; rfl
  | cons c l ih =>
    intro r
    rw [mergeMetadataFold, List.foldl_cons]
    exact ih _

/-- The duration of a non-trivial merge is the fold of `dstep` over all
chunks, seeded with `0` (the first chunk's seed agrees with `dstep 0` as
long as its final segment's end is non-negative). -/
theorem mergeWithOverlap_duration (firstChunk : TranscriptionResult)
    (rest : List TranscriptionResult)
    (hfirst : ∀ s ∈ firstChunk.Segments, 0 ≤ s.End) :
    (mergeWithOverlap (firstChunk :: rest)).Duration
      = (firstChunk :: rest).foldl dstep 0 := by
  rw [mergeWithOverlap]
  show (mergeMetadataFold (firstChunk :: rest) _).Duration = _
  rw [mergeMetadataFold_duration]
  show (((firstChunk :: rest).zip rest).foldl mergeStep _).totalDuration = _
  rw [foldl_mergeStep_totalDuration, List.map_snd_zip _ _ (by simp)]
  have hst0 : (match firstChunk.Segments.getLast? with
      | some s => s.End
      | none => (0 : Int)) = dstep 0 firstChunk := by
    rw [dstep]
    cases hl : firstChunk.Segments.getLast? with
    | none => rfl
    | some s =>
      have h0 : 0 ≤ s.End := hfirst s (mem_of_getLast?_eq _ _ hl)
      show s.End = max 0 s.End
      exact (max_eq_right h0).symm
  rw [hst0, List.foldl_cons]

theorem length_filterMap_id_of_all_some (l : List (Option TranscriptionResult))
    (h : ∀ x ∈ l, x.isSome = true) : (l.filterMap id).length = l.length := by
  induction l with
  | nil => rfl
  | cons x l ih =>
    cases x with
    | none =>
      have := h none (List.mem_cons_self _ _)
      simp at this
    | some c =>
      rw [List.filterMap_cons]
      simp only [id]
      rw [List.length_cons, List.length_cons,
        ih (fun y hy => h y (List.mem_cons_of_mem _ hy))]

/-- C9 (amended): for a list of two or more valid chunks in each of which the
final segment's end is the largest (and ends are non-negative — true of real
timestamps), the merged duration equals the maximum segment end across all
segments of all input chunks.  In general the code only consults each chunk's
*final* segment, which is why the per-chunk ordering hypothesis is needed. -/
theorem mergeChunks_duration_max (chunks : List (Option TranscriptionResult))
    (h2 : 2 ≤ chunks.length)
    (hval : ∀ x ∈ chunks, ∃ c, x = some c ∧ c.Text ≠ "")
    (hord : ∀ x ∈ chunks, ∀ c, x = some c →
      (∀ s ∈ c.Segments, 0 ≤ s.End) ∧
      (∀ s ∈ c.Segments, ∀ last, c.Segments.getLast? = some last →
        s.End ≤ last.End)) :
    ∃ r, MergeChunks chunks = .ok r ∧ r.Duration = specMaxSegmentEnd chunks := by
  have hsome : ∀ x ∈ chunks, x.isSome = true := by
    intro x hx
    obtain ⟨c, rfl, -⟩ := hval x hx
    rfl
  rw [MergeChunks, if_neg (by omega), if_neg (mergeChunks_no_panic chunks hsome)]
  have hperm : (sortChunksByID (chunks.filterMap id)).Perm (chunks.filterMap id) :=
    List.perm_insertionSort _ _
  have hmemall : ∀ a ∈ sortChunksByID (chunks.filterMap id), a.Text ≠ "" ∧
      (∀ s ∈ a.Segments, 0 ≤ s.End) ∧
      (∀ s ∈ a.Segments, ∀ last, a.Segments.getLast? = some last →
        s.End ≤ last.End) := by
    intro a ha
    have hmem : a ∈ chunks.filterMap id := hperm.mem_iff.mp ha
    obtain ⟨x, hx, hxa⟩ := List.mem_filterMap.mp hmem
    simp only [id] at hxa
    obtain ⟨c, hceq, hct⟩ := hval x hx
    have hca : c = a := by
      rw [hceq] at hxa
      exact Option.some.inj hxa
    subst hca
    exact ⟨hct, hord x hx c hceq⟩
  have hfil : (sortChunksByID (chunks.filterMap id)).filter (fun c => c.Text ≠ "")
      = sortChunksByID (chunks.filterMap id) :=
    List.filter_eq_self.mpr (fun a ha => by simpa using (hmemall a ha).1)
  have hsortlen : (sortChunksByID (chunks.filterMap id)).length = chunks.length := by
    rw [hperm.length_eq, length_filterMap_id_of_all_some chunks hsome]
  obtain ⟨a, b, t, hshape⟩ :
      ∃ a b t, sortChunksByID (chunks.filterMap id) = a :: b :: t := by
    cases hs : sortChunksByID (chunks.filterMap id) with
    | nil => rw [hs] at hsortlen; simp at hsortlen; omega
    | cons a u =>
      cases u with
      | nil => rw [hs] at hsortlen; simp at hsortlen; omega
      | cons b t => exact ⟨a, b, t, rfl⟩
  simp only [hfil]
  simp only [hshape]
  rw [hshape] at hmemall hperm
  refine ⟨_, rfl, ?_⟩
  rw [mergeWithOverlap_duration a (b :: t)
    (hmemall a (List.mem_cons_self _ _)).2.1]
  rw [foldl_dstep_eq (a :: b :: t) (fun c hc => (hmemall c hc).2.2) 0]
  have hrc : RightCommutative (fun (d : Int) (s : TranscriptionSegment) => max d s.End) :=
    ⟨fun d s1 s2 => by rw [max_assoc, max_comm s1.End, ← max_assoc]⟩
  rw [specMaxSegmentEnd]
  exact @List.Perm.foldl_eq _ _ _ _ _ hrc (hperm.flatMap_right (fun c => c.Segments)) 0

/-- The two chunks of the C9 counterexample: chunk 0's segments are not
ordered by end time (ends 100 then 50), chunk 1 ends at 60; the texts share
no words, so no overlap is detected. -/
def overlapCexChunkA : TranscriptionResult :=
  ⟨"aaa", [⟨"x", 0, 100, "", 0.0⟩, ⟨"y", 10, 50, "", 0.0⟩], "", 0, 0, []⟩

def overlapCexChunkB : TranscriptionResult :=
  ⟨"bbb", [⟨"z", 55, 60, "", 0.0⟩], "en", 0, 1, []⟩

/-- C9 counterexample: the merged duration is `60` (the code only looks at
each chunk's *final* segment end), but the maximum end across all segments
is `100`. -/
theorem mergeChunks_duration_cex :
    (MergeChunks [some overlapCexChunkA, some overlapCexChunkB]).durationOf
        = some 60 ∧
    specMaxSegmentEnd [some overlapCexChunkA, some overlapCexChunkB] = 100 ∧
    (60 : Int) ≠ 100 :=
  ⟨by decide, by decide, by decide⟩

/-- The two chunks of the C9 witness (each chunk's segments ordered). -/
def wChunkA : TranscriptionResult :=
  ⟨"aa", [⟨"s1", 0, 10, "", 0.0⟩], "", 0, 0, []⟩

def wChunkB : TranscriptionResult :=
  ⟨"bb", [⟨"s2", 5, 20, "", 0.0⟩], "", 0, 1, []⟩

/-- Witness for the amended C9. -/
theorem mergeChunks_duration_max_witness :
    2 ≤ ([some wChunkA, some wChunkB] : List (Option TranscriptionResult)).length ∧
    (∃ r, MergeChunks [some wChunkA, some wChunkB] = .ok r ∧
      r.Duration = specMaxSegmentEnd [some wChunkA, some wChunkB]) := by
  refine ⟨by decide, mergeChunks_duration_max _ (by decide) ?_ ?_⟩
  · intro x hx
    rcases List.mem_cons.mp hx with h | h
    · exact ⟨wChunkA, h, by decide⟩
    · rcases List.mem_cons.mp h with h' | h'
      · exact ⟨wChunkB, h', by decide⟩
      · cases h'
  · intro x hx c hc
    rcases List.mem_cons.mp hx with h | h
    · rw [h] at hc
      obtain rfl := Option.some.inj hc.symm
      constructor
      · intro s hs
        rcases List.mem_singleton.mp hs with rfl
        decide
      · intro s hs last hlast
        rcases List.mem_singleton.mp hs with rfl
        have h1 : some (⟨"s1", 0, 10, "", 0.0⟩ : TranscriptionSegment) = some last :=
          hlast
        rw [Option.some.inj h1]
    · rcases List.mem_cons.mp h with h' | h'
      · rw [h'] at hc
        obtain rfl := Option.some.inj hc.symm
        constructor
        · intro s hs
          rcases List.mem_singleton.mp hs with rfl
          decide
        · intro s hs last hlast
          rcases List.mem_singleton.mp hs with rfl
          have h1 : some (⟨"s2", 5, 20, "", 0.0⟩ : TranscriptionSegment) = some last :=
            hlast
          rw [Option.some.inj h1]
      · cases h'

end Gollmscribe
